import Mathlib

set_option maxHeartbeats 1000000

/-!
Shallow embedding of `.github/workflows/pr-digest.js`: a script that collects
open pull requests from explicit repository listings and from per-author
searches, merges them into one URL-keyed map, classifies them by ownership,
and renders a grouped textual digest.  Machine strings are modelled as Lean
`String`s, with the character-level operations (trim, split on `/`, the
search-URL regular expression) implemented over `List Char` so that they are
executable by the kernel.  Asynchronous remote calls are modelled by an
explicit environment of pure oracles; fallible steps return `Except`.
-/

namespace PRDigest

/-- A pull-request record exactly as built by `addPR` in the script:
`repo` is `owner + "/" + repo` from the call arguments, the other fields come
from the detail payload with the script's fallbacks applied. -/
structure PR where
  repo : String
  number : Nat
  title : String
  url : String
  author : String
  days : Int
  additions : Nat
  deletions : Nat
  draft : Bool
deriving DecidableEq

/-- The detail payload of `github.rest.pulls.get` restricted to the fields the
script reads; `author`, `additions`, `deletions` are optional as in the raw
API response (`data.user?.login`, `data.additions ?? 0`, `data.deletions ?? 0`). -/
structure PRDetail where
  number : Nat
  title : String
  html_url : String
  author : Option String
  created_at : Int
  additions : Option Nat
  deletions : Option Nat
  draft : Bool
deriving DecidableEq

/-- Outcome of one detail fetch: success, an HTTP 404 (`e.status === 404`),
or any other error (which the script rethrows). -/
inductive FetchResult where
  | ok (d : PRDetail)
  | notFound
  | err (s : String)
deriving DecidableEq

/-- The script's `prMap` (a JS `Map` keyed by `html_url`), modelled as an
insertion-ordered association list. -/
abbrev PRMap := List (String × PR)

/-- JS `Map.prototype.has`. -/
def containsKey (m : PRMap) (k : String) : Bool :=
  m.any (fun p => p.1 == k)

/-- JS `Map.prototype.set`: replace the value in place when the key is
present, append otherwise. -/
def mapSet (m : PRMap) (k : String) (v : PR) : PRMap :=
  if containsKey m k then m.map (fun p => if p.1 == k then (k, v) else p)
  else m ++ [(k, v)]

/-- JS `Map.prototype.get`. -/
def mapLookup (m : PRMap) (k : String) : Option PR :=
  (m.find? (fun p => p.1 == k)).map Prod.snd

/-- Number of entries stored under a given key (a well-formed map has at most
one). -/
def countKey (m : PRMap) (k : String) : Nat :=
  (m.filter (fun p => p.1 == k)).length

/-- JS `Map.prototype.values`, in insertion order. -/
def mapValues (m : PRMap) : List PR := m.map Prod.snd

/-- Character-level model of `String.prototype.trim`. -/
def trimChars (cs : List Char) : List Char :=
  ((cs.dropWhile Char.isWhitespace).reverse.dropWhile Char.isWhitespace).reverse

/-- JS `String(x).trim()` for a string input. -/
def jsTrim (s : String) : String := String.mk (trimChars s.data)

/-- JS `user.replace(/^@/, "")`: strip a single leading `@`. -/
def stripAtSign (s : String) : String :=
  match s.data with
  | '@' :: rest => String.mk rest
  | _ => s

/-- Character-level model of `String.prototype.split("/")`. -/
def splitSlash : List Char → List (List Char)
  | [] => [[]]
  | c :: cs =>
    if c = '/' then [] :: splitSlash cs
    else
      match splitSlash cs with
      | [] => [[c]]
      | p :: ps => (c :: p) :: ps

/-- Inverse of `splitSlash`: join segments with `/`. -/
def unsplitSlash : List (List Char) → List Char
  | [] => []
  | [s] => s
  | s :: rest => s ++ '/' :: unsplitSlash rest

/-- JS `s.split("/")` returning strings. -/
def jsSplitSlash (s : String) : List String :=
  (splitSlash s.data).map String.mk

/-- A non-empty all-digit segment, as matched by the regex group `(\d+)`. -/
def isDigitStr (cs : List Char) : Bool :=
  !cs.isEmpty && cs.all (fun c => c.isDigit)

/-- Numeric value of a digit string (the idealized `Number(...)`). -/
def digitsToNat (cs : List Char) : Nat :=
  cs.foldl (fun a c => a * 10 + (c.toNat - 48)) 0

/-- The shape `.../repos/{owner}/{repo}/issues/{number}` at the end of a URL:
an arbitrary prefix, then literally `/repos/`, the owner segment, `/`, the
repo segment, `/issues/`, and the digit segment reaching the end. -/
def urlPattern (pre o r n : List Char) : List Char :=
  pre ++ '/' :: ("repos".data ++ '/' :: (o ++ '/' :: (r ++ '/' :: ("issues".data ++ '/' :: n))))

/-- Model of `it.url.match(/\/repos\/([^/]+)\/([^/]+)\/issues\/(\d+)$/)`
followed by `Number(match[3])`.  The regex is end-anchored, the three groups
are slash-free with the number all digits, and a `/` must precede `repos`, so
a match exists iff the last five `/`-separated segments of the URL are
`repos`, a non-empty owner, a non-empty repo, `issues`, and a non-empty digit
string, with at least one further segment before them. -/
def parseSearchUrl (url : String) : Option (String × String × Nat) :=
  match (splitSlash url.data).reverse with
  | n :: i :: r :: o :: p :: _ :: _ =>
    if i = "issues".data ∧ p = "repos".data ∧ o ≠ [] ∧ r ≠ [] ∧ isDigitStr n = true then
      some (String.mk o, String.mk r, digitsToNat n)
    else none
  | _ => none

/-- The remote platform, as pure oracles: `now` for `Date.now()`, `today` for
the formatted date line, `listPages` for the paginated `pulls.list` iterator
(one inner list per page, each item carrying its `number` or `none` for a
malformed/falsy item), `search` for the fully-paginated
`search.issuesAndPullRequests` results (each item carrying its `url`, or
`none` for a non-object item), and `pulls_get` for the detail fetch. -/
structure Env where
  now : Int
  today : String
  listPages : String → String → List (List (Option Nat))
  search : String → List (Option String)
  pulls_get : String → String → Nat → FetchResult

/-- The script's `daysOpen`: `Math.floor((Date.now() - created) / 86400000)`,
with both instants in integer milliseconds. -/
def daysOpen (now created_at : Int) : Int :=
  (now - created_at).fdiv 86400000

/-- The record stored by `prMap.set` on a successful detail fetch. -/
def mkRecord (owner repo : String) (now : Int) (d : PRDetail) : PR :=
  { repo := owner ++ "/" ++ repo
    number := d.number
    title := d.title
    url := d.html_url
    author := match d.author with
      | some a => if a = "" then "unknown" else a
      | none => "unknown"
    days := daysOpen now d.created_at
    additions := d.additions.getD 0
    deletions := d.deletions.getD 0
    draft := d.draft }

/-- The script's `addPR`: fetch the detail record; on success store it keyed
by `html_url`; on a 404 return leaving the map unchanged; rethrow anything
else. -/
def addPR (env : Env) (m : PRMap) (owner repo : String) (number : Nat) :
    Except String PRMap :=
  match env.pulls_get owner repo number with
  | .ok d => .ok (mapSet m d.html_url (mkRecord owner repo env.now d))
  | .notFound => .ok m
  | .err s => .error s

/-- The inner `for (const pr of prs)` loop of the repos phase: before each
record the global cap is checked (`break`), falsy items are skipped, then
`addPR` runs. -/
def processRecords (env : Env) (maxTotal : Nat) (owner repo : String) :
    List (Option Nat) → PRMap → Except String PRMap
  | [], m => .ok m
  | none :: rest, m =>
    if maxTotal ≤ m.length then .ok m
    else processRecords env maxTotal owner repo rest m
  | some n :: rest, m =>
    if maxTotal ≤ m.length then .ok m
    else if n = 0 then processRecords env maxTotal owner repo rest m
    else
      match addPR env m owner repo n with
      | .error s => .error s
      | .ok m1 => processRecords env maxTotal owner repo rest m1

/-- The `for await (const page of ...)` loop: every page is iterated (there
is no cap check at this level in the script) and its records are processed. -/
def processPages (env : Env) (maxTotal : Nat) (owner repo : String) :
    List (List (Option Nat)) → PRMap → Except String PRMap
  | [], m => .ok m
  | pg :: rest, m =>
    match processRecords env maxTotal owner repo pg m with
    | .error s => .error s
    | .ok m1 => processPages env maxTotal owner repo rest m1

/-- `processPages` instrumented with the number of page iterations performed
(each one is a remote pagination step). -/
def processPagesCount (env : Env) (maxTotal : Nat) (owner repo : String) :
    List (List (Option Nat)) → PRMap → Except String PRMap × Nat
  | [], m => (.ok m, 0)
  | pg :: rest, m =>
    match processRecords env maxTotal owner repo pg m with
    | .error s => (.error s, 1)
    | .ok m1 =>
      let r := processPagesCount env maxTotal owner repo rest m1
      (r.1, r.2 + 1)

/-- The outer `for (const repoFull of repos)` loop: cap check (`break`), then
trim and split the identifier, skip malformed entries, then paginate. -/
def processRepos (env : Env) (maxTotal : Nat) :
    List String → PRMap → Except String PRMap
  | [], m => .ok m
  | rf :: rest, m =>
    if maxTotal ≤ m.length then .ok m
    else if (jsSplitSlash (jsTrim rf)).getD 0 "" = "" ∨ (jsSplitSlash (jsTrim rf)).getD 1 "" = "" then
      processRepos env maxTotal rest m
    else
      match processPages env maxTotal ((jsSplitSlash (jsTrim rf)).getD 0 "")
          ((jsSplitSlash (jsTrim rf)).getD 1 "")
          (env.listPages ((jsSplitSlash (jsTrim rf)).getD 0 "")
            ((jsSplitSlash (jsTrim rf)).getD 1 "")) m with
      | .error s => .error s
      | .ok m1 => processRepos env maxTotal rest m1

/-- The `for (const it of results.slice(0, MAX_SEARCH_RESULTS_PER_USER))`
loop: skip non-object items, items without a `url`, and items whose `url`
does not match the pattern; otherwise `addPR` with the parsed components.
Note there is no global-cap check inside this loop. -/
def processSearchItems (env : Env) :
    List (Option String) → PRMap → Except String PRMap
  | [], m => .ok m
  | none :: rest, m => processSearchItems env rest m
  | some url :: rest, m =>
    if url = "" then processSearchItems env rest m
    else
      match parseSearchUrl url with
      | none => processSearchItems env rest m
      | some (o, r, n) =>
        match addPR env m o r n with
        | .error s => .error s
        | .ok m1 => processSearchItems env rest m1

/-- The `for (const userRaw of users)` loop: cap check (`break`), normalize
the handle (trim, strip one `@`), skip empty handles, search, truncate to the
per-user cap, and process the items. -/
def processUsers (env : Env) (maxTotal searchCap : Nat) (org : String) :
    List String → PRMap → Except String PRMap
  | [], m => .ok m
  | u :: rest, m =>
    if maxTotal ≤ m.length then .ok m
    else if stripAtSign (jsTrim u) = "" then processUsers env maxTotal searchCap org rest m
    else
      match processSearchItems env
          ((env.search ("is:pr is:open org:" ++ org ++ " author:" ++ stripAtSign (jsTrim u))).take searchCap) m with
      | .error s => .error s
      | .ok m1 => processUsers env maxTotal searchCap org rest m1

/-- `processUsers` instrumented with the number of author searches issued. -/
def processUsersCount (env : Env) (maxTotal searchCap : Nat) (org : String) :
    List String → PRMap → Except String PRMap × Nat
  | [], m => (.ok m, 0)
  | u :: rest, m =>
    if maxTotal ≤ m.length then (.ok m, 0)
    else if stripAtSign (jsTrim u) = "" then processUsersCount env maxTotal searchCap org rest m
    else
      match processSearchItems env
          ((env.search ("is:pr is:open org:" ++ org ++ " author:" ++ stripAtSign (jsTrim u))).take searchCap) m with
      | .error s => (.error s, 1)
      | .ok m1 =>
        let r := processUsersCount env maxTotal searchCap org rest m1
        (r.1, r.2 + 1)

/-- A JSON field that may be absent, present with the wrong type (e.g. a
string where an array is expected), or present with the expected type. -/
inductive JField (α : Type) where
  | absent
  | wrongType
  | val (a : α)
deriving DecidableEq

/-- `Array.isArray(x) ? x : []`. -/
def coerceList : JField (List String) → List String
  | .val l => l
  | _ => []

/-- The parsed configuration document, before validation.  `org` is `none`
when the field is absent; `some ""` models a present-but-falsy value. -/
structure RawConfig where
  org : Option String
  repos : JField (List String)
  users : JField (List String)
  max_prs_per_repo : Option Nat
  max_total_prs : Option Nat
  max_search_results_per_user : Option Nat
deriving DecidableEq

/-- The validated configuration, with defaults applied. -/
structure Config where
  org : String
  repos : List String
  users : List String
  maxPrsPerRepo : Nat
  maxTotalPrs : Nat
  maxSearchPerUser : Nat
deriving DecidableEq

/-- What the orchestrator sees before fetching: the `PR_DIGEST_CONFIG`
environment variable, whether the file exists, and the result of JSON
parsing (`none` for invalid JSON). -/
structure ConfigSource where
  cfgPath : Option String
  fileExists : Bool
  parsed : Option RawConfig
deriving DecidableEq

/-- The five fatal configuration errors reported via `core.setFailed`. -/
inductive ErrKind where
  | missingEnv
  | fileNotFound
  | invalidJson
  | missingOrg
  | noReposOrUsers
deriving DecidableEq

/-- A fatal run error: a configuration error, or a propagated fetch error. -/
inductive RunErr where
  | config (e : ErrKind)
  | fetch (s : String)
deriving DecidableEq

/-- The validation guards at the top of the script, in source order:
missing env var, missing file, invalid JSON, falsy `org`, and the
both-lists-empty check (after the `Array.isArray` coercions). -/
def validateConfig (src : ConfigSource) : Except ErrKind Config :=
  match src.cfgPath with
  | none => .error .missingEnv
  | some p =>
    if p = "" then .error .missingEnv
    else if src.fileExists = false then .error .fileNotFound
    else
      match src.parsed with
      | none => .error .invalidJson
      | some cfg =>
        let repos := coerceList cfg.repos
        let users := coerceList cfg.users
        match cfg.org with
        | none => .error .missingOrg
        | some o =>
          if o = "" then .error .missingOrg
          else if repos = [] ∧ users = [] then .error .noReposOrUsers
          else .ok { org := o, repos := repos, users := users
                     maxPrsPerRepo := cfg.max_prs_per_repo.getD 25
                     maxTotalPrs := cfg.max_total_prs.getD 200
                     maxSearchPerUser := cfg.max_search_results_per_user.getD 500 }

/-- Both fetch phases in sequence over the shared map, starting empty. -/
def collectAll (env : Env) (cfg : Config) : Except String PRMap :=
  match processRepos env cfg.maxTotalPrs cfg.repos [] with
  | .error s => .error s
  | .ok m1 => processUsers env cfg.maxTotalPrs cfg.maxSearchPerUser cfg.org cfg.users m1

/-- The classification pass: `teamRepoSet` holds the trimmed configured repo
identifiers, and each merged record goes to `teamOwned` or `teamNonOwned` by
exact (case-sensitive) membership of its `repo` string. -/
def classify (repos : List String) (prs : List PR) : List PR × List PR :=
  let teamRepoSet := repos.map jsTrim
  (prs.filter (fun p => teamRepoSet.contains p.repo),
   prs.filter (fun p => !(teamRepoSet.contains p.repo)))

/-- The render ordering on records: `a` before `b` when `b.days ≤ a.days`
(the comparator `(a, b) => b.days - a.days`, i.e. descending age). -/
def prAgeGe (a b : PR) : Prop := b.days ≤ a.days

instance : DecidableRel prAgeGe :=
  fun a b => inferInstanceAs (Decidable (b.days ≤ a.days))

instance : IsTotal PR prAgeGe := ⟨fun a b => le_total b.days a.days⟩

instance : IsTrans PR prAgeGe := ⟨fun _ _ _ h1 h2 => le_trans h2 h1⟩

/-- `prs.sort((a, b) => b.days - a.days)`: any sort for the descending-age
comparator. -/
def sortByDaysDesc (prs : List PR) : List PR :=
  List.insertionSort prAgeGe prs

/-- The grouped structure the renderer iterates: sort all records by
descending age, then one group per distinct `repo` key in ascending
lexicographic key order (`Object.keys(byRepo).sort()`), each group holding
its records in the already-established descending-age order. -/
def renderGroups (prs : List PR) : List (String × List PR) :=
  let sorted := sortByDaysDesc prs
  let keys := List.insertionSort (fun a b => a ≤ b) ((sorted.map (fun p => p.repo)).dedup)
  keys.map (fun k => (k, sorted.filter (fun p => p.repo == k)))

/-- The two lines (plus blank) emitted per record: linked title with draft
marker, then the age/author/delta metadata line. -/
def renderPRLines (pr : PR) : List String :=
  let draftMark := if pr.draft then " 📝(draft)" else ""
  let url := pr.url
  let number := pr.number
  let title := pr.title
  let days := pr.days
  let author := pr.author
  let adds := pr.additions
  let dels := pr.deletions
  [s!"• <{url}|#{number} {title}>{draftMark}",
   s!"  🕒 {days}d   |   👤 @{author}   |   🧮 +{adds} / -{dels}",
   ""]

/-- The repository sub-header, showing the full group count. -/
def repoHeaderLine (repo : String) (count : Nat) : String :=
  let c := count
  let r := repo
  s!"*{r}* — {c} open"

/-- The lines emitted for one repository group: blank, sub-header with the
full count, blank, then the records truncated to the per-repository cap
(`repoPRs.slice(0, MAX_PRS_PER_REPO)`). -/
def renderGroupBlock (maxPerRepo : Nat) (g : String × List PR) : List String :=
  ["", repoHeaderLine g.1 g.2.length, ""] ++ (g.2.take maxPerRepo).flatMap renderPRLines

/-- The decorative separator line. -/
def sectionRule : String := "━━━━━━━━━━━━━━━━━━━━"

/-- The script's `renderSection`: header block, the `_None today 🎉_`
placeholder for an empty list, otherwise the table header followed by every
repository group block. -/
def renderSection (maxPerRepo : Nat) (title : String) (prs : List PR) : List String :=
  let header := ["", sectionRule, title, sectionRule, ""]
  if prs.isEmpty then header ++ ["_None today 🎉_", ""]
  else
    header ++ ["*PR* | *Age* | *Author* | *Δ*", ""]
      ++ (renderGroups prs).flatMap (renderGroupBlock maxPerRepo)

/-- Deciding whether a run result is a fatal configuration error. -/
def isConfigError : Except RunErr String → Bool
  | .error (.config _) => true
  | _ => false

/-- The whole run: validate, collect from both sources, classify, render the
two sections, and emit the single output text; any failure yields an error
and no output. -/
def runDigest (src : ConfigSource) (env : Env) : Except RunErr String :=
  match validateConfig src with
  | .error e => .error (.config e)
  | .ok cfg =>
    match collectAll env cfg with
    | .error s => .error (.fetch s)
    | .ok m =>
      let prs := mapValues m
      let owned := (classify cfg.repos prs).1
      let nonOwned := (classify cfg.repos prs).2
      let headerLine := "📬 *PR Digest* — " ++ env.today
      .ok (String.intercalate "\n"
        (headerLine :: (renderSection cfg.maxPrsPerRepo "📦 *Team Owned Repos*" owned
          ++ renderSection cfg.maxPrsPerRepo "🧑‍💻 *Team PRs in Non-Owned Repos*" nonOwned)))

/-- Size of the map held in a fetch-phase result (`0` on error); used to
state concrete evaluations. -/
def okSize : Except String PRMap → Nat
  | .ok m => m.length
  | .error _ => 0

/-! ### Concrete environments and configurations used in evaluations -/

/-- A detail oracle response: PR number `n` resolves with URL `u1` for
number `1` and `u2` otherwise, so distinct numbers give distinct identities. -/
def tDetail (n : Nat) : PRDetail :=
  { number := n, title := "", html_url := if n = 1 then "u1" else "u2",
    author := none, created_at := 0, additions := none, deletions := none,
    draft := false }

/-- An environment whose author search returns two well-formed items and
whose detail fetch always succeeds. -/
def tEnv : Env :=
  { now := 0, today := "",
    listPages := fun _ _ => [],
    search := fun _ => [some "h/repos/a/b/issues/1", some "h/repos/a/b/issues/2"],
    pulls_get := fun _ _ n => .ok (tDetail n) }

/-- A configuration with one author, no repos, and a total cap of `1`. -/
def tCfg : Config :=
  { org := "o", repos := [], users := ["u"],
    maxPrsPerRepo := 25, maxTotalPrs := 1, maxSearchPerUser := 500 }

/-- A sample merged record. -/
def rec0 : PR :=
  { repo := "a/b", number := 1, title := "", url := "k", author := "unknown",
    days := 0, additions := 0, deletions := 0, draft := false }

/-- An environment with no data at all. -/
def emptyEnv : Env :=
  { now := 0, today := "", listPages := fun _ _ => [], search := fun _ => [],
    pulls_get := fun _ _ _ => .notFound }

/-- A valid configuration with empty repo and user work lists is not
accepted by validation, so this one keeps a repo list empty and the run
trivial through an empty environment. -/
def wCfg : Config :=
  { org := "o", repos := [], users := [],
    maxPrsPerRepo := 25, maxTotalPrs := 200, maxSearchPerUser := 500 }

/-- A parsed configuration whose `org` field is present but empty. -/
def badCfg : RawConfig :=
  { org := some "", repos := .val ["a/b"], users := .val [],
    max_prs_per_repo := none, max_total_prs := none, max_search_results_per_user := none }

/-- A configuration source that reaches the `org` guard with `org = ""`. -/
def badSrc : ConfigSource :=
  { cfgPath := some "cfg.json", fileExists := true, parsed := some badCfg }

/-- A fixed detail record with URL `u`. -/
def d0 : PRDetail :=
  { number := 7, title := "t", html_url := "u", author := some "al",
    created_at := 0, additions := some 3, deletions := some 1, draft := false }

/-- An environment whose detail fetch always returns `d0`. -/
def wEnv4 : Env :=
  { now := 0, today := "", listPages := fun _ _ => [], search := fun _ => [],
    pulls_get := fun _ _ _ => .ok d0 }

/-- The map after storing `d0`'s record once. -/
def m4a : PRMap := mapSet [] "u" (mkRecord "a" "b" 0 d0)

/-- The map after storing `d0`'s record twice. -/
def m4b : PRMap := mapSet m4a "u" (mkRecord "a" "b" 0 d0)

/-- An environment where owner `x` yields 404s and every other detail fetch
fails with `boom`; repository `y/z` lists one PR. -/
def wEnv8 : Env :=
  { now := 0, today := "",
    listPages := fun o _ => if o = "y" then [[some 1]] else [],
    search := fun _ => [],
    pulls_get := fun o _ _ => if o = "x" then .notFound else .err "boom" }

/-- A parsed configuration naming the repository `y/z`. -/
def cfg8raw : RawConfig :=
  { org := some "acme", repos := .val ["y/z"], users := .val [],
    max_prs_per_repo := none, max_total_prs := none, max_search_results_per_user := none }

/-- A valid configuration source for `cfg8raw`. -/
def src8 : ConfigSource :=
  { cfgPath := some "cfg.json", fileExists := true, parsed := some cfg8raw }

/-- The validated configuration produced from `src8`. -/
def cfg8 : Config :=
  { org := "acme", repos := ["y/z"], users := [],
    maxPrsPerRepo := 25, maxTotalPrs := 200, maxSearchPerUser := 500 }

/-! ### Lemmas about `splitSlash` and the search-URL parser -/

theorem splitSlash_ne_nil (cs : List Char) : splitSlash cs ≠ [] := by
  induction cs with
  | nil => simp [splitSlash]
  | cons c cs ih =>
    simp only [splitSlash]
    split
    · exact List.cons_ne_nil _ _
    · split <;> exact List.cons_ne_nil _ _

theorem splitSlash_append_slash (xs ys : List Char) :
    splitSlash (xs ++ '/' :: ys) = splitSlash xs ++ splitSlash ys := by
  induction xs with
  | nil => simp [splitSlash]
  | cons c xs ih =>
    by_cases hc : c = '/'
    · subst hc
      simp [splitSlash, ih]
    · cases h : splitSlash xs with
      | nil => exact absurd h (splitSlash_ne_nil xs)
      | cons p ps =>
        simp only [List.cons_append, splitSlash, if_neg hc, h, List.append_eq]
        rw [ih, h]
        simp

theorem splitSlash_no_slash (cs : List Char) (h : ∀ c ∈ cs, c ≠ '/') :
    splitSlash cs = [cs] := by
  induction cs with
  | nil => rfl
  | cons c cs ih =>
    have hc : c ≠ '/' := h c (by simp)
    have ih' := ih (fun x hx => h x (by simp [hx]))
    simp [splitSlash, hc, ih']

theorem mem_splitSlash_no_slash (cs : List Char) (s : List Char)
    (hs : s ∈ splitSlash cs) : ∀ c ∈ s, c ≠ '/' := by
  induction cs generalizing s with
  | nil =>
    simp [splitSlash] at hs
    subst hs; simp
  | cons c cs ih =>
    by_cases hc : c = '/'
    · subst hc
      simp [splitSlash] at hs
      rcases hs with h | h
      · subst h; simp
      · exact ih s h
    · simp only [splitSlash, if_neg hc] at hs
      cases hsp : splitSlash cs with
      | nil => exact absurd hsp (splitSlash_ne_nil cs)
      | cons p ps =>
        rw [hsp] at hs
        simp only [List.mem_cons] at hs
        rcases hs with h | h
        · subst h
          intro x hx
          rcases List.mem_cons.mp hx with h1 | h1
          · subst h1; exact hc
          · exact ih p (by rw [hsp]; simp) x h1
        · exact ih s (by rw [hsp]; simp [h])

theorem unsplitSlash_splitSlash (cs : List Char) :
    unsplitSlash (splitSlash cs) = cs := by
  induction cs with
  | nil => rfl
  | cons c cs ih =>
    by_cases hc : c = '/'
    · subst hc
      simp only [splitSlash, if_pos rfl]
      cases hsp : splitSlash cs with
      | nil => exact absurd hsp (splitSlash_ne_nil cs)
      | cons p ps =>
        rw [hsp] at ih
        simpa [unsplitSlash] using ih
    · simp only [splitSlash, if_neg hc]
      cases hsp : splitSlash cs with
      | nil => exact absurd hsp (splitSlash_ne_nil cs)
      | cons p ps =>
        rw [hsp] at ih
        cases ps with
        | nil => simpa [unsplitSlash] using congrArg (c :: ·) ih
        | cons q qs =>
          simp only [unsplitSlash] at ih ⊢
          rw [List.cons_append]
          exact congrArg (c :: ·) ih

theorem unsplitSlash_append_of_ne_nil (ys zs : List (List Char)) (hy : ys ≠ []) (hz : zs ≠ []) :
    unsplitSlash (ys ++ zs) = unsplitSlash ys ++ '/' :: unsplitSlash zs := by
  induction ys with
  | nil => exact absurd rfl hy
  | cons s ys ih =>
    cases ys with
    | nil =>
      cases zs with
      | nil => exact absurd rfl hz
      | cons z zs' => simp [unsplitSlash]
    | cons t ts =>
      have ih' := ih (by simp)
      have hne : (t :: ts) ++ zs ≠ [] := by simp
      calc unsplitSlash ((s :: t :: ts) ++ zs)
          = s ++ '/' :: unsplitSlash ((t :: ts) ++ zs) := by
            cases h : (t :: ts) ++ zs with
            | nil => exact absurd h hne
            | cons a as => simp only [List.cons_append] at h ⊢; rw [h]; rfl
        _ = s ++ '/' :: (unsplitSlash (t :: ts) ++ '/' :: unsplitSlash zs) := by rw [ih']
        _ = unsplitSlash (s :: t :: ts) ++ '/' :: unsplitSlash zs := by
            simp [unsplitSlash, List.append_assoc]

theorem digit_ne_slash {c : Char} (h : c.isDigit = true) : c ≠ '/' := by
  intro he
  subst he
  exact absurd h (by decide)

theorem isDigitStr_no_slash {n : List Char} (h : isDigitStr n = true) :
    ∀ c ∈ n, c ≠ '/' := by
  intro c hc
  have hall : n.all (fun c => c.isDigit) = true := by
    simp only [isDigitStr, Bool.and_eq_true] at h
    exact h.2
  exact digit_ne_slash (List.all_eq_true.mp hall c hc)

theorem isDigitStr_ne_nil {n : List Char} (h : isDigitStr n = true) : n ≠ [] := by
  intro he
  subst he
  exact absurd h (by decide)

theorem parseSearchUrl_sound (url : String) (pre o r n : List Char)
    (hurl : url.data = urlPattern pre o r n)
    (ho1 : ∀ c ∈ o, c ≠ '/') (ho2 : o ≠ [])
    (hr1 : ∀ c ∈ r, c ≠ '/') (hr2 : r ≠ [])
    (hn : isDigitStr n = true) :
    parseSearchUrl url = some (String.mk o, String.mk r, digitsToNat n) := by
  have hsplit : splitSlash url.data
      = splitSlash pre ++ ["repos".data, o, r, "issues".data, n] := by
    rw [hurl]
    unfold urlPattern
    rw [splitSlash_append_slash pre]
    congr 1
    rw [splitSlash_append_slash "repos".data, splitSlash_no_slash "repos".data (by decide),
        splitSlash_append_slash o, splitSlash_no_slash o ho1,
        splitSlash_append_slash r, splitSlash_no_slash r hr1,
        splitSlash_append_slash "issues".data, splitSlash_no_slash "issues".data (by decide),
        splitSlash_no_slash n (isDigitStr_no_slash hn)]
    simp
  have hprene : (splitSlash pre).reverse ≠ [] := by
    simp only [ne_eq, List.reverse_eq_nil_iff]
    exact splitSlash_ne_nil pre
  cases hpre : (splitSlash pre).reverse with
  | nil => exact absurd hpre hprene
  | cons x xs =>
    have hrev : (splitSlash url.data).reverse
        = n :: "issues".data :: r :: o :: "repos".data :: x :: xs := by
      rw [hsplit]
      simp [List.reverse_append, hpre]
    unfold parseSearchUrl
    rw [hrev]
    simp [ho2, hr2, hn]

theorem parseSearchUrl_complete (url : String) (os rs : String) (k : Nat)
    (h : parseSearchUrl url = some (os, rs, k)) :
    ∃ pre o r n, url.data = urlPattern pre o r n ∧
      (∀ c ∈ o, c ≠ '/') ∧ o ≠ [] ∧ (∀ c ∈ r, c ≠ '/') ∧ r ≠ [] ∧
      isDigitStr n = true ∧ os = String.mk o ∧ rs = String.mk r ∧ k = digitsToNat n := by
  unfold parseSearchUrl at h
  cases hrev : (splitSlash url.data).reverse with
  | nil => rw [hrev] at h; exact absurd h (by simp)
  | cons n' t1 =>
    cases t1 with
    | nil => rw [hrev] at h; exact absurd h (by simp)
    | cons i t2 =>
      cases t2 with
      | nil => rw [hrev] at h; exact absurd h (by simp)
      | cons r' t3 =>
        cases t3 with
        | nil => rw [hrev] at h; exact absurd h (by simp)
        | cons o' t4 =>
          cases t4 with
          | nil => rw [hrev] at h; exact absurd h (by simp)
          | cons p t5 =>
            cases t5 with
            | nil => rw [hrev] at h; exact absurd h (by simp)
            | cons x xs =>
              rw [hrev] at h
              have h2 : (if i = "issues".data ∧ p = "repos".data ∧ o' ≠ [] ∧ r' ≠ [] ∧
                  isDigitStr n' = true then
                    some (String.mk o', String.mk r', digitsToNat n') else none)
                  = some (os, rs, k) := h
              by_cases hcond : i = "issues".data ∧ p = "repos".data ∧ o' ≠ [] ∧ r' ≠ [] ∧ isDigitStr n' = true
              · rw [if_pos hcond] at h2
                obtain ⟨hi, hp, ho, hr, hd⟩ := hcond
                have hinj := Option.some.inj h2
                have hos : os = String.mk o' := by
                  have := congrArg Prod.fst hinj
                  simpa using this.symm
                have hrs : rs = String.mk r' := by
                  have := congrArg (fun q => q.2.1) hinj
                  simpa using this.symm
                have hk : k = digitsToNat n' := by
                  have := congrArg (fun q => q.2.2) hinj
                  simpa using this.symm
                have hL : splitSlash url.data
                    = ((x :: xs).reverse) ++ [p, o', r', i, n'] := by
                  have := congrArg List.reverse hrev
                  rw [List.reverse_reverse] at this
                  rw [this]
                  simp
                have hmem_o : o' ∈ splitSlash url.data := by rw [hL]; simp
                have hmem_r : r' ∈ splitSlash url.data := by rw [hL]; simp
                have hurl : url.data
                    = unsplitSlash ((x :: xs).reverse) ++ '/'
                      :: (p ++ '/' :: (o' ++ '/' :: (r' ++ '/' :: (i ++ '/' :: n')))) := by
                  conv_lhs => rw [← unsplitSlash_splitSlash url.data]
                  rw [hL, unsplitSlash_append_of_ne_nil _ _ (by simp) (by simp)]
                  simp [unsplitSlash]
                refine ⟨unsplitSlash ((x :: xs).reverse), o', r', n', ?_,
                  mem_splitSlash_no_slash _ _ hmem_o, ho,
                  mem_splitSlash_no_slash _ _ hmem_r, hr, hd, hos, hrs, hk⟩
                rw [hurl, hi, hp]
                rfl
              · rw [if_neg hcond] at h2
                exact absurd h2 (by simp)

/-! ### Lemmas about the merge map -/

theorem length_mapSet_le (m : PRMap) (k : String) (v : PR) :
    (mapSet m k v).length ≤ m.length + 1 := by
  unfold mapSet
  split
  · simp
  · simp

theorem countKey_cons_hit (m : PRMap) (k : String) (p : String × PR) (hp : p.1 = k) :
    countKey (p :: m) k = countKey m k + 1 := by
  simp [countKey, List.filter_cons, hp]

theorem countKey_cons_other (m : PRMap) (k : String) (p : String × PR) (hp : ¬ p.1 = k) :
    countKey (p :: m) k = countKey m k := by
  simp [countKey, List.filter_cons, hp]

theorem containsKey_cons_hit (m : PRMap) (k : String) (p : String × PR) (hp : p.1 = k) :
    containsKey (p :: m) k = true := by
  simp [containsKey, hp]

theorem containsKey_cons_other (m : PRMap) (k : String) (p : String × PR) (hp : ¬ p.1 = k) :
    containsKey (p :: m) k = containsKey m k := by
  simp [containsKey, List.any_cons, hp]

theorem countKey_map_replace (m : PRMap) (k : String) (v : PR) :
    countKey (m.map (fun p => if p.1 == k then (k, v) else p)) k = countKey m k := by
  induction m with
  | nil => rfl
  | cons p m ih =>
    rw [List.map_cons]
    by_cases hp : p.1 = k
    · have hfp : (if p.1 == k then (k, v) else p) = (k, v) := by simp [hp]
      rw [hfp, countKey_cons_hit _ k (k, v) rfl, ih, countKey_cons_hit m k p hp]
    · have hfp : (if p.1 == k then (k, v) else p) = p := by simp [hp]
      rw [hfp, countKey_cons_other _ k p hp, ih, countKey_cons_other m k p hp]

theorem countKey_eq_zero_of_not_contains (m : PRMap) (k : String) :
    containsKey m k = false → countKey m k = 0 := by
  induction m with
  | nil => intro _; rfl
  | cons p m ih =>
    intro h
    by_cases hp : p.1 = k
    · rw [containsKey_cons_hit m k p hp] at h
      exact absurd h (by simp)
    · rw [containsKey_cons_other m k p hp] at h
      rw [countKey_cons_other m k p hp]
      exact ih h

theorem countKey_pos_of_contains (m : PRMap) (k : String) :
    containsKey m k = true → 1 ≤ countKey m k := by
  induction m with
  | nil => intro h; exact absurd h (by simp [containsKey])
  | cons p m ih =>
    intro h
    by_cases hp : p.1 = k
    · rw [countKey_cons_hit m k p hp]
      omega
    · rw [containsKey_cons_other m k p hp] at h
      rw [countKey_cons_other m k p hp]
      exact ih h

theorem countKey_mapSet_self (m : PRMap) (k : String) (v : PR) (h : countKey m k ≤ 1) :
    countKey (mapSet m k v) k = 1 := by
  unfold mapSet
  by_cases hc : containsKey m k = true
  · rw [if_pos hc, countKey_map_replace]
    have := countKey_pos_of_contains m k hc
    omega
  · rw [if_neg hc]
    have h0 : countKey m k = 0 :=
      countKey_eq_zero_of_not_contains m k (by simpa using hc)
    have happ : countKey (m ++ [(k, v)]) k = countKey m k + countKey [(k, v)] k := by
      simp [countKey, List.filter_append]
    rw [happ, h0]
    simp [countKey, List.filter_cons]

theorem find_replace (m : PRMap) (k : String) (v : PR) :
    containsKey m k = true →
    (m.map (fun p => if p.1 == k then (k, v) else p)).find? (fun p => p.1 == k)
      = some (k, v) := by
  induction m with
  | nil => intro hc; exact absurd hc (by simp [containsKey])
  | cons p m ih =>
    intro hc
    by_cases hp : p.1 = k
    · have hfp : (if p.1 == k then (k, v) else p) = (k, v) := by simp [hp]
      simp only [List.map_cons, hfp]
      exact List.find?_cons_of_pos _ (by simp)
    · have hfp : (if p.1 == k then (k, v) else p) = p := by simp [hp]
      simp only [containsKey, List.any_cons, Bool.or_eq_true] at hc
      rcases hc with h | h
      · exact absurd (by simpa using h) hp
      · simp only [List.map_cons, hfp]
        rw [List.find?_cons_of_neg _ (by simp [hp])]
        exact ih (by simpa [containsKey] using h)

theorem find_append_new (m : PRMap) (k : String) (v : PR) :
    containsKey m k = false →
    (m ++ [(k, v)]).find? (fun p => p.1 == k) = some (k, v) := by
  induction m with
  | nil => intro _; exact List.find?_cons_of_pos _ (by simp)
  | cons p m ih =>
    intro hc
    simp only [containsKey, List.any_cons, Bool.or_eq_false_iff] at hc
    have hp : ¬ p.1 = k := by simpa using hc.1
    simp only [List.cons_append]
    rw [List.find?_cons_of_neg _ (by simp [hp])]
    exact ih (by simpa [containsKey] using hc.2)

theorem mapLookup_mapSet_self (m : PRMap) (k : String) (v : PR) :
    mapLookup (mapSet m k v) k = some v := by
  unfold mapSet mapLookup
  by_cases hc : containsKey m k = true
  · rw [if_pos hc, find_replace m k v hc]
    rfl
  · rw [if_neg hc, find_append_new m k v (by simpa using hc)]
    rfl

theorem map_replace_id (m : PRMap) (k : String) (v : PR) :
    containsKey m k = false →
    m.map (fun p => if p.1 == k then (k, v) else p) = m := by
  induction m with
  | nil => intro _; rfl
  | cons p m ih =>
    intro hc
    simp only [containsKey, List.any_cons, Bool.or_eq_false_iff] at hc
    have hp : ¬ p.1 = k := by simpa using hc.1
    have hfp : (if p.1 == k then (k, v) else p) = p := by simp [hp]
    simp only [List.map_cons, hfp]
    rw [ih (by simpa [containsKey] using hc.2)]

theorem containsKey_map_replace (m : PRMap) (k : String) (v : PR) :
    containsKey (m.map (fun p => if p.1 == k then (k, v) else p)) k = containsKey m k := by
  induction m with
  | nil => rfl
  | cons p m ih =>
    rw [List.map_cons]
    by_cases hp : p.1 = k
    · have hfp : (if p.1 == k then (k, v) else p) = (k, v) := by simp [hp]
      rw [hfp, containsKey_cons_hit _ k (k, v) rfl, containsKey_cons_hit m k p hp]
    · have hfp : (if p.1 == k then (k, v) else p) = p := by simp [hp]
      rw [hfp, containsKey_cons_other _ k p hp, ih, containsKey_cons_other m k p hp]

theorem mapSet_idem (m : PRMap) (k : String) (v : PR) :
    mapSet (mapSet m k v) k v = mapSet m k v := by
  by_cases hc : containsKey m k = true
  · have h1 : mapSet m k v = m.map (fun p => if p.1 == k then (k, v) else p) := by
      unfold mapSet
      rw [if_pos hc]
    have h2 : containsKey (m.map (fun p => if p.1 == k then (k, v) else p)) k = true := by
      rw [containsKey_map_replace]
      exact hc
    rw [h1]
    unfold mapSet
    rw [if_pos h2, List.map_map]
    apply List.map_congr_left
    intro p _
    by_cases hp : p.1 = k
    · simp [Function.comp, hp]
    · simp [Function.comp, hp]
  · have hcf : containsKey m k = false := by simpa using hc
    have h1 : mapSet m k v = m ++ [(k, v)] := by
      unfold mapSet
      rw [if_neg hc]
    have h2 : containsKey (m ++ [(k, v)]) k = true := by
      simp [containsKey, List.any_append]
    rw [h1]
    unfold mapSet
    rw [if_pos h2, List.map_append, map_replace_id m k v hcf]
    simp

/-! ### Cap bounds for the fetch loops -/

theorem addPR_ok_length (env : Env) (m m' : PRMap) (o r : String) (n : Nat)
    (h : addPR env m o r n = .ok m') : m'.length ≤ m.length + 1 := by
  unfold addPR at h
  cases hf : env.pulls_get o r n with
  | ok d =>
    rw [hf] at h
    obtain rfl : mapSet m d.html_url (mkRecord o r env.now d) = m' := by simpa using h
    exact length_mapSet_le _ _ _
  | notFound =>
    rw [hf] at h
    obtain rfl : m = m' := by simpa using h
    omega
  | err s =>
    rw [hf] at h
    exact absurd h (by simp)

theorem processRecords_ok_le_cap (env : Env) (cap : Nat) (o r : String)
    (items : List (Option Nat)) (m m' : PRMap)
    (hm : m.length ≤ cap)
    (h : processRecords env cap o r items m = .ok m') : m'.length ≤ cap := by
  induction items generalizing m with
  | nil =>
    simp only [processRecords] at h
    obtain rfl : m = m' := by simpa using h
    omega
  | cons it rest ih =>
    cases it with
    | none =>
      simp only [processRecords] at h
      split at h
      · obtain rfl : m = m' := by simpa using h
        omega
      · exact ih m hm h
    | some n =>
      simp only [processRecords] at h
      split at h
      · obtain rfl : m = m' := by simpa using h
        omega
      · split at h
        · exact ih m hm h
        · rename_i hcap hn
          cases ha : addPR env m o r n with
          | error s =>
            rw [ha] at h
            exact absurd h (by simp)
          | ok m1 =>
            rw [ha] at h
            have hlen := addPR_ok_length env m m1 o r n ha
            have hcap' : ¬ cap ≤ m.length := hcap
            exact ih m1 (by omega) h

theorem processPages_ok_le_cap (env : Env) (cap : Nat) (o r : String)
    (pages : List (List (Option Nat))) (m m' : PRMap)
    (hm : m.length ≤ cap)
    (h : processPages env cap o r pages m = .ok m') : m'.length ≤ cap := by
  induction pages generalizing m with
  | nil =>
    simp only [processPages] at h
    obtain rfl : m = m' := by simpa using h
    omega
  | cons pg rest ih =>
    simp only [processPages] at h
    cases hp : processRecords env cap o r pg m with
    | error s =>
      rw [hp] at h
      exact absurd h (by simp)
    | ok m1 =>
      rw [hp] at h
      exact ih m1 (processRecords_ok_le_cap env cap o r pg m m1 hm hp) h

theorem processRepos_ok_le_cap (env : Env) (cap : Nat)
    (repos : List String) (m m' : PRMap)
    (hm : m.length ≤ cap)
    (h : processRepos env cap repos m = .ok m') : m'.length ≤ cap := by
  induction repos generalizing m with
  | nil =>
    simp only [processRepos] at h
    obtain rfl : m = m' := by simpa using h
    omega
  | cons rf rest ih =>
    simp only [processRepos] at h
    split at h
    · obtain rfl : m = m' := by simpa using h
      omega
    · split at h
      · exact ih m hm h
      · cases hp : processPages env cap ((jsSplitSlash (jsTrim rf)).getD 0 "")
            ((jsSplitSlash (jsTrim rf)).getD 1 "")
            (env.listPages ((jsSplitSlash (jsTrim rf)).getD 0 "")
              ((jsSplitSlash (jsTrim rf)).getD 1 "")) m with
        | error s =>
          rw [hp] at h
          exact absurd h (by simp)
        | ok m1 =>
          rw [hp] at h
          exact ih m1 (processPages_ok_le_cap env cap _ _ _ m m1 hm hp) h

theorem processSearchItems_ok_length (env : Env)
    (items : List (Option String)) (m m' : PRMap)
    (h : processSearchItems env items m = .ok m') :
    m'.length ≤ m.length + items.length := by
  induction items generalizing m with
  | nil =>
    simp only [processSearchItems] at h
    obtain rfl : m = m' := by simpa using h
    simp
  | cons it rest ih =>
    cases it with
    | none =>
      simp only [processSearchItems] at h
      have := ih m h
      simp only [List.length_cons]
      omega
    | some url =>
      simp only [processSearchItems] at h
      split at h
      · have := ih m h
        simp only [List.length_cons]
        omega
      · cases hp : parseSearchUrl url with
        | none =>
          rw [hp] at h
          have := ih m h
          simp only [List.length_cons]
          omega
        | some t =>
          obtain ⟨o, r, n⟩ := t
          rw [hp] at h
          have h2 : (match addPR env m o r n with
              | Except.error s => Except.error s
              | Except.ok m1 => processSearchItems env rest m1) = Except.ok m' := h
          cases ha : addPR env m o r n with
          | error s =>
            rw [ha] at h2
            exact absurd h2 (by simp)
          | ok m1 =>
            rw [ha] at h2
            have h1 := addPR_ok_length env m m1 o r n ha
            have := ih m1 h2
            simp only [List.length_cons]
            omega

theorem processUsers_ok_bound (env : Env) (cap sc : Nat) (org : String)
    (users : List String) (m m' : PRMap)
    (h : processUsers env cap sc org users m = .ok m') :
    m'.length ≤ max m.length (cap - 1 + sc) := by
  induction users generalizing m with
  | nil =>
    simp only [processUsers] at h
    obtain rfl : m = m' := by simpa using h
    exact le_max_left _ _
  | cons u rest ih =>
    simp only [processUsers] at h
    split at h
    · rename_i hcap
      obtain rfl : m = m' := by simpa using h
      exact le_max_left _ _
    · split at h
      · exact ih m h
      · rename_i hcap hu
        cases hs : processSearchItems env
            ((env.search ("is:pr is:open org:" ++ org ++ " author:" ++ stripAtSign (jsTrim u))).take sc) m with
        | error s =>
          rw [hs] at h
          exact absurd h (by simp)
        | ok m1 =>
          rw [hs] at h
          have h1 := processSearchItems_ok_length env _ m m1 hs
          have h2 : ((env.search ("is:pr is:open org:" ++ org ++ " author:"
              ++ stripAtSign (jsTrim u))).take sc).length ≤ sc :=
            List.length_take_le _ _
          have hcap' : ¬ cap ≤ m.length := hcap
          have h3 : m1.length ≤ cap - 1 + sc := by omega
          have h4 := ih m1 h
          have h5 : max m1.length (cap - 1 + sc) ≤ cap - 1 + sc :=
            Nat.max_le.mpr ⟨h3, le_refl _⟩
          exact le_trans h4 (le_trans h5 (le_max_right _ _))

/-! ### Cap short-circuit behaviour -/

theorem processRecords_at_cap (env : Env) (cap : Nat) (o r : String)
    (items : List (Option Nat)) (m : PRMap) (h : cap ≤ m.length) :
    processRecords env cap o r items m = .ok m := by
  cases items with
  | nil => rfl
  | cons it rest => cases it <;> simp [processRecords, h]

theorem processPagesCount_at_cap (env : Env) (cap : Nat) (o r : String)
    (pages : List (List (Option Nat))) (m : PRMap) (h : cap ≤ m.length) :
    processPagesCount env cap o r pages m = (.ok m, pages.length) := by
  induction pages with
  | nil => rfl
  | cons pg rest ih =>
    simp [processPagesCount, processRecords_at_cap env cap o r pg m h, ih]

theorem processPages_at_cap (env : Env) (cap : Nat) (o r : String)
    (pages : List (List (Option Nat))) (m : PRMap) (h : cap ≤ m.length) :
    processPages env cap o r pages m = .ok m := by
  induction pages with
  | nil => rfl
  | cons pg rest ih =>
    simp [processPages, processRecords_at_cap env cap o r pg m h, ih]

theorem processRepos_at_cap (env : Env) (cap : Nat)
    (repos : List String) (m : PRMap) (h : cap ≤ m.length) :
    processRepos env cap repos m = .ok m := by
  cases repos with
  | nil => rfl
  | cons rf rest => simp [processRepos, h]

theorem processUsersCount_at_cap (env : Env) (cap sc : Nat) (org : String)
    (users : List String) (m : PRMap) (h : cap ≤ m.length) :
    processUsersCount env cap sc org users m = (.ok m, 0) := by
  cases users with
  | nil => rfl
  | cons u rest => simp [processUsersCount, h]

theorem processUsers_at_cap (env : Env) (cap sc : Nat) (org : String)
    (users : List String) (m : PRMap) (h : cap ≤ m.length) :
    processUsers env cap sc org users m = .ok m := by
  cases users with
  | nil => rfl
  | cons u rest => simp [processUsers, h]

theorem processPagesCount_fst (env : Env) (cap : Nat) (o r : String)
    (pages : List (List (Option Nat))) (m : PRMap) :
    (processPagesCount env cap o r pages m).1 = processPages env cap o r pages m := by
  induction pages generalizing m with
  | nil => rfl
  | cons pg rest ih =>
    cases hp : processRecords env cap o r pg m with
    | error s => simp [processPagesCount, processPages, hp]
    | ok m1 => simp [processPagesCount, processPages, hp, ih]

theorem processUsersCount_fst (env : Env) (cap sc : Nat) (org : String)
    (users : List String) (m : PRMap) :
    (processUsersCount env cap sc org users m).1 = processUsers env cap sc org users m := by
  induction users generalizing m with
  | nil => rfl
  | cons u rest ih =>
    by_cases hcap : cap ≤ m.length
    · simp [processUsersCount, processUsers, hcap]
    · by_cases hu : stripAtSign (jsTrim u) = ""
      · simp [processUsersCount, processUsers, hcap, hu, ih]
      · cases hs : processSearchItems env
            ((env.search ("is:pr is:open org:" ++ org ++ " author:"
              ++ stripAtSign (jsTrim u))).take sc) m with
        | error s => simp [processUsersCount, processUsers, hcap, hu, hs]
        | ok m1 => simp [processUsersCount, processUsers, hcap, hu, hs, ih]

/-! ### Classification lemmas -/

theorem length_filter_add_not {α : Type} (l : List α) (p : α → Bool) :
    (l.filter p).length + (l.filter (fun a => !(p a))).length = l.length := by
  induction l with
  | nil => rfl
  | cons a l ih =>
    cases hp : p a
    · simp [List.filter_cons, hp]
      omega
    · simp [List.filter_cons, hp]
      omega

/-! ### Render lemmas -/

theorem sortByDaysDesc_sorted (prs : List PR) :
    List.Sorted prAgeGe (sortByDaysDesc prs) :=
  List.sorted_insertionSort prAgeGe prs

theorem renderGroups_keys (prs : List PR) :
    (renderGroups prs).map Prod.fst
      = List.insertionSort (fun a b => a ≤ b)
          (((sortByDaysDesc prs).map (fun p => p.repo)).dedup) := by
  unfold renderGroups
  rw [List.map_map]
  have h : (Prod.fst ∘ fun k => (k, (sortByDaysDesc prs).filter (fun p => p.repo == k)))
      = id := rfl
  rw [h, List.map_id]

theorem keys_sorted_lt (l : List String) (hnd : l.Nodup) :
    (List.insertionSort (fun a b => a ≤ b) l).Pairwise (fun a b => a < b) := by
  have hs : List.Sorted (fun a b : String => a ≤ b)
      (List.insertionSort (fun a b => a ≤ b) l) :=
    List.sorted_insertionSort _ l
  have hperm : List.Perm (List.insertionSort (fun a b => a ≤ b) l) l :=
    List.perm_insertionSort _ l
  have hnd2 : (List.insertionSort (fun a b => a ≤ b) l).Nodup := hperm.symm.nodup hnd
  have hand := List.Pairwise.and hs hnd2
  exact hand.imp (fun hab => lt_of_le_of_ne hab.1 hab.2)

theorem renderGroups_mem_snd (prs : List PR) (g : String × List PR)
    (hg : g ∈ renderGroups prs) :
    g.2 = (sortByDaysDesc prs).filter (fun p => p.repo == g.1) := by
  unfold renderGroups at hg
  obtain ⟨k, hk, rfl⟩ := List.mem_map.mp hg
  rfl

theorem renderGroups_snd_sorted (prs : List PR) (g : String × List PR)
    (hg : g ∈ renderGroups prs) : g.2.Pairwise prAgeGe := by
  rw [renderGroups_mem_snd prs g hg]
  exact (sortByDaysDesc_sorted prs).sublist (List.filter_sublist _)

theorem renderSection_nonempty (cap : Nat) (title : String) (prs : List PR)
    (h : prs ≠ []) :
    renderSection cap title prs
      = ["", sectionRule, title, sectionRule, "", "*PR* | *Age* | *Author* | *Δ*", ""]
        ++ (renderGroups prs).flatMap (renderGroupBlock cap) := by
  unfold renderSection
  rw [if_neg (by simpa [List.isEmpty_iff] using h)]
  rfl

/-! ### Validation lemmas -/

theorem validateConfig_error_iff (src : ConfigSource) :
    (∃ e, validateConfig src = .error e) ↔
      (src.cfgPath = none ∨ src.cfgPath = some "" ∨ src.fileExists = false
        ∨ src.parsed = none
        ∨ (∃ cfg, src.parsed = some cfg ∧ (cfg.org = none ∨ cfg.org = some ""))
        ∨ (∃ cfg, src.parsed = some cfg
            ∧ coerceList cfg.repos = [] ∧ coerceList cfg.users = [])) := by
  obtain ⟨cp, fe, pa⟩ := src
  cases cp with
  | none => simp [validateConfig]
  | some p =>
    by_cases hp : p = ""
    · subst hp
      simp [validateConfig]
    · cases fe with
      | false => simp [validateConfig, hp]
      | true =>
        cases pa with
        | none => simp [validateConfig, hp]
        | some cfg =>
          obtain ⟨org, rf, uf, c1, c2, c3⟩ := cfg
          cases org with
          | none => simp [validateConfig, hp]
          | some o =>
            by_cases ho : o = ""
            · subst ho
              simp [validateConfig, hp]
            · by_cases hl : coerceList rf = [] ∧ coerceList uf = []
              · simp [validateConfig, hp, ho, hl]
              · simp [validateConfig, hp, ho, hl]

theorem isConfigError_runDigest (src : ConfigSource) (env : Env) :
    (isConfigError (runDigest src env) = true ↔ ∃ e, validateConfig src = .error e) := by
  cases hv : validateConfig src with
  | error e => simp [runDigest, hv, isConfigError]
  | ok cfg =>
    cases hc : collectAll env cfg with
    | error s => simp [runDigest, hv, hc, isConfigError]
    | ok m => simp [runDigest, hv, hc, isConfigError]

theorem runDigest_config_error_indep (src : ConfigSource) (env env2 : Env)
    (h : isConfigError (runDigest src env) = true) :
    runDigest src env2 = runDigest src env := by
  cases hv : validateConfig src with
  | error e => simp [runDigest, hv]
  | ok cfg =>
    exfalso
    cases hc : collectAll env cfg with
    | error s => simp [runDigest, hv, hc, isConfigError] at h
    | ok m => simp [runDigest, hv, hc, isConfigError] at h

/-! ### The claims -/

/-- C1 (corrected): through the repo-listing phase the merged map never
exceeds `max_total_prs`, and the whole collection (after the author-search
phase, whose inner item loop carries no cap check) is bounded by
`max(max_total_prs, max_total_prs - 1 + max_search_results_per_user)`. -/
theorem c1_amended (env : Env) (cfg : Config) (m1 mf : PRMap)
    (h1 : processRepos env cfg.maxTotalPrs cfg.repos [] = .ok m1)
    (h2 : processUsers env cfg.maxTotalPrs cfg.maxSearchPerUser cfg.org cfg.users m1 = .ok mf) :
    collectAll env cfg = .ok mf
    ∧ m1.length ≤ cfg.maxTotalPrs
    ∧ mf.length ≤ max cfg.maxTotalPrs (cfg.maxTotalPrs - 1 + cfg.maxSearchPerUser) := by
  have hc : m1.length ≤ cfg.maxTotalPrs :=
    processRepos_ok_le_cap env _ _ [] m1 (by simp) h1
  refine ⟨?_, hc, ?_⟩
  · unfold collectAll
    rw [h1]
    exact h2
  · have hb := processUsers_ok_bound env _ _ _ _ m1 mf h2
    have hm : max m1.length (cfg.maxTotalPrs - 1 + cfg.maxSearchPerUser)
        ≤ max cfg.maxTotalPrs (cfg.maxTotalPrs - 1 + cfg.maxSearchPerUser) :=
      Nat.max_le.mpr ⟨le_trans hc (le_max_left _ _), le_max_right _ _⟩
    exact le_trans hb hm

/-- Witness for C1: the empty run satisfies both bounds. -/
theorem c1_amended_witness :
    collectAll emptyEnv wCfg = .ok []
    ∧ ([] : PRMap).length ≤ wCfg.maxTotalPrs
    ∧ ([] : PRMap).length
        ≤ max wCfg.maxTotalPrs (wCfg.maxTotalPrs - 1 + wCfg.maxSearchPerUser) :=
  c1_amended emptyEnv wCfg [] [] rfl rfl

/-- C1 counterexample: with `max_total_prs = 1`, one author search returning
two distinct PRs makes the final merged collection hold 2 entries — the
search-item loop has no per-record cap check, so the claimed invariant
`size ≤ max_total_prs` fails. -/
theorem c1_counterexample :
    okSize (collectAll tEnv tCfg) = 2 ∧ tCfg.maxTotalPrs = 1 :=
  ⟨by decide, rfl⟩

/-- C2 (corrected): once the merge map has reached the cap, each later
repository and each later author is skipped at the loop boundary, and every
record inside pending pages is skipped leaving the map unchanged — but the
page iterator of an in-progress repository pagination still advances through
all remaining pages (the count equals `pages.length`, not `0`). -/
theorem c2_amended (env : Env) (cap sc : Nat) (o r org : String)
    (items : List (Option Nat)) (pages : List (List (Option Nat)))
    (repos users : List String) (m : PRMap)
    (h : cap ≤ m.length) :
    processRecords env cap o r items m = .ok m
    ∧ processPagesCount env cap o r pages m = (.ok m, pages.length)
    ∧ processRepos env cap repos m = .ok m
    ∧ processUsersCount env cap sc org users m = (.ok m, 0)
    ∧ processUsers env cap sc org users m = .ok m :=
  ⟨processRecords_at_cap env cap o r items m h,
   processPagesCount_at_cap env cap o r pages m h,
   processRepos_at_cap env cap repos m h,
   processUsersCount_at_cap env cap sc org users m h,
   processUsers_at_cap env cap sc org users m h⟩

/-- Witness for C2 at a concrete full state. -/
theorem c2_amended_witness :
    processRecords emptyEnv 1 "a" "b" [some 2] [("k", rec0)] = .ok [("k", rec0)]
    ∧ processPagesCount emptyEnv 1 "a" "b" [[some 2], [some 3]] [("k", rec0)]
        = (.ok [("k", rec0)], [[some 2], [some 3]].length)
    ∧ processRepos emptyEnv 1 ["a/b"] [("k", rec0)] = .ok [("k", rec0)]
    ∧ processUsersCount emptyEnv 1 500 "o" ["u"] [("k", rec0)] = (.ok [("k", rec0)], 0)
    ∧ processUsers emptyEnv 1 500 "o" ["u"] [("k", rec0)] = .ok [("k", rec0)] :=
  c2_amended emptyEnv 1 500 "a" "b" "o" [some 2] [[some 2], [some 3]]
    ["a/b"] ["u"] [("k", rec0)] (by decide)

/-- C2 counterexample: with cap 1 and two one-record pages starting from the
empty map, the first page fills the map to the cap, yet the pagination still
iterates the second page: the page counter reads 2, where the claim (every
subsequent page iteration is skipped once the cap is reached) demands that
pagination stop after the first page. -/
theorem c2_counterexample :
    (processPagesCount tEnv 1 "a" "b" [[some 1], [some 2]] []).2 = 2
    ∧ okSize (processRecords tEnv 1 "a" "b" [some 1] []) = 1 :=
  ⟨by decide, by decide⟩

/-- C3: classification is a total, disjoint partition — each merged record
is in `teamOwned` iff its `repo` string matches (case-sensitively) one of
the trimmed configured repo identifiers, in `teamNonOwned` iff it does not,
never in both, and the two sizes sum to the merged size. -/
theorem c3_partition (repos : List String) (prs : List PR) (pr : PR) :
    (pr ∈ (classify repos prs).1
      ↔ pr ∈ prs ∧ (repos.map jsTrim).contains pr.repo = true)
    ∧ (pr ∈ (classify repos prs).2
      ↔ pr ∈ prs ∧ (repos.map jsTrim).contains pr.repo = false)
    ∧ ¬ (pr ∈ (classify repos prs).1 ∧ pr ∈ (classify repos prs).2)
    ∧ (classify repos prs).1.length + (classify repos prs).2.length = prs.length := by
  refine ⟨?_, ?_, ?_, ?_⟩
  · simp [classify, List.mem_filter]
  · simp [classify, List.mem_filter]
  · rintro ⟨h1, h2⟩
    simp [classify, List.mem_filter] at h1 h2
    obtain ⟨a, ha, hae⟩ := h1.2
    exact h2.2 a ha hae
  · exact length_filter_add_not prs _

/-- C4: merging is idempotent per identity — storing the records fetched for
the same resource locator via both paths leaves exactly one entry under that
key, holding the later record; if the two records coincide the second write
changes nothing. -/
theorem c4_idempotent_merge (env : Env) (m m1 m2 : PRMap)
    (o1 r1 o2 r2 : String) (n1 n2 : Nat) (d1 d2 : PRDetail)
    (hwf : ∀ k, countKey m k ≤ 1)
    (hf1 : env.pulls_get o1 r1 n1 = .ok d1)
    (hf2 : env.pulls_get o2 r2 n2 = .ok d2)
    (hurl : d1.html_url = d2.html_url)
    (h1 : addPR env m o1 r1 n1 = .ok m1)
    (h2 : addPR env m1 o2 r2 n2 = .ok m2) :
    countKey m2 d2.html_url = 1
    ∧ mapLookup m2 d2.html_url = some (mkRecord o2 r2 env.now d2)
    ∧ (mkRecord o1 r1 env.now d1 = mkRecord o2 r2 env.now d2 → m2 = m1) := by
  unfold addPR at h1 h2
  rw [hf1] at h1
  rw [hf2] at h2
  have h1b : mapSet m d1.html_url (mkRecord o1 r1 env.now d1) = m1 :=
    Except.ok.inj h1
  subst h1b
  have h2b : mapSet (mapSet m d1.html_url (mkRecord o1 r1 env.now d1)) d2.html_url
      (mkRecord o2 r2 env.now d2) = m2 := Except.ok.inj h2
  subst h2b
  refine ⟨?_, mapLookup_mapSet_self _ _ _, ?_⟩
  · apply countKey_mapSet_self
    rw [← hurl]
    exact le_of_eq (countKey_mapSet_self m _ _ (hwf _))
  · intro hrec
    rw [← hurl, ← hrec]
    exact mapSet_idem m d1.html_url (mkRecord o1 r1 env.now d1)

/-- Witness for C4 at a concrete double fetch of the same PR. -/
theorem c4_idempotent_merge_witness :
    countKey m4b d0.html_url = 1
    ∧ mapLookup m4b d0.html_url = some (mkRecord "a" "b" 0 d0)
    ∧ (mkRecord "a" "b" 0 d0 = mkRecord "a" "b" 0 d0 → m4b = m4a) :=
  c4_idempotent_merge wEnv4 [] m4a m4b "a" "b" "a" "b" 1 1 d0 d0
    (fun k => by simp [countKey]) rfl rfl rfl rfl rfl

/-- C5: for a non-empty record list the rendered section lists the repository
groups in strictly ascending lexicographic key order, and inside each group
the records (both the full group and the emitted truncated prefix) appear in
non-increasing age order. -/
theorem c5_render_order (cap : Nat) (title : String) (prs : List PR)
    (g : String × List PR) (h : prs ≠ []) (hg : g ∈ renderGroups prs) :
    renderSection cap title prs
      = ["", sectionRule, title, sectionRule, "", "*PR* | *Age* | *Author* | *Δ*", ""]
        ++ (renderGroups prs).flatMap (renderGroupBlock cap)
    ∧ ((renderGroups prs).map Prod.fst).Pairwise (fun a b => a < b)
    ∧ g.2.Pairwise prAgeGe
    ∧ (g.2.take cap).Pairwise prAgeGe := by
  refine ⟨renderSection_nonempty cap title prs h, ?_, ?_, ?_⟩
  · rw [renderGroups_keys]
    exact keys_sorted_lt _ (List.nodup_dedup _)
  · exact renderGroups_snd_sorted prs g hg
  · exact (renderGroups_snd_sorted prs g hg).sublist (List.take_sublist cap g.2)

/-- Witness for C5 at a one-record list. -/
theorem c5_render_order_witness :
    renderSection 1 "T" [rec0]
      = ["", sectionRule, "T", sectionRule, "", "*PR* | *Age* | *Author* | *Δ*", ""]
        ++ (renderGroups [rec0]).flatMap (renderGroupBlock 1)
    ∧ ((renderGroups [rec0]).map Prod.fst).Pairwise (fun a b => a < b)
    ∧ ("a/b", [rec0]).2.Pairwise prAgeGe
    ∧ (("a/b", [rec0]).2.take 1).Pairwise prAgeGe :=
  c5_render_order 1 "T" [rec0] ("a/b", [rec0]) (by simp) (by decide)

/-- C6: each rendered repository group emits exactly the prefix of its
descending-age order truncated to `max_prs_per_repo` — at most that many
records, with nothing re-sorted and no truncation notice — while its
sub-header shows the full group count. -/
theorem c6_per_repo_cap (cap : Nat) (prs : List PR) (g : String × List PR)
    (_hg : g ∈ renderGroups prs) :
    renderGroupBlock cap g
      = ["", repoHeaderLine g.1 g.2.length, ""] ++ (g.2.take cap).flatMap renderPRLines
    ∧ (g.2.take cap).length = min cap g.2.length
    ∧ (g.2.take cap).length ≤ cap
    ∧ g.2.take cap ++ g.2.drop cap = g.2 :=
  ⟨rfl, List.length_take cap g.2, List.length_take_le cap g.2,
   List.take_append_drop cap g.2⟩

/-- Witness for C6 at a one-record group. -/
theorem c6_per_repo_cap_witness :
    renderGroupBlock 1 ("a/b", [rec0])
      = ["", repoHeaderLine "a/b" [rec0].length, ""]
        ++ ([rec0].take 1).flatMap renderPRLines
    ∧ ([rec0].take 1).length = min 1 [rec0].length
    ∧ ([rec0].take 1).length ≤ 1
    ∧ [rec0].take 1 ++ [rec0].drop 1 = [rec0] :=
  c6_per_repo_cap 1 [rec0] ("a/b", [rec0]) (by decide)

/-- C7 (corrected): the run fails with a configuration error (producing no
output and consulting no fetch oracle) exactly when the config path is unset
or empty, the file is missing, the JSON is invalid, `org` is absent or
empty (falsy), or both coerced lists are empty; and any such failure is
independent of the fetch environment. -/
theorem c7_amended (src : ConfigSource) (env env2 : Env) :
    (isConfigError (runDigest src env) = true ↔
      (src.cfgPath = none ∨ src.cfgPath = some "" ∨ src.fileExists = false
        ∨ src.parsed = none
        ∨ (∃ cfg, src.parsed = some cfg ∧ (cfg.org = none ∨ cfg.org = some ""))
        ∨ (∃ cfg, src.parsed = some cfg
            ∧ coerceList cfg.repos = [] ∧ coerceList cfg.users = [])))
    ∧ (isConfigError (runDigest src env) = true →
        runDigest src env2 = runDigest src env) := by
  constructor
  · rw [isConfigError_runDigest]
    exact validateConfig_error_iff src
  · exact runDigest_config_error_indep src env env2

/-- Witness for C7 at a concrete source and two environments. -/
theorem c7_amended_witness :
    (isConfigError (runDigest badSrc emptyEnv) = true ↔
      (badSrc.cfgPath = none ∨ badSrc.cfgPath = some "" ∨ badSrc.fileExists = false
        ∨ badSrc.parsed = none
        ∨ (∃ cfg, badSrc.parsed = some cfg ∧ (cfg.org = none ∨ cfg.org = some ""))
        ∨ (∃ cfg, badSrc.parsed = some cfg
            ∧ coerceList cfg.repos = [] ∧ coerceList cfg.users = [])))
    ∧ (isConfigError (runDigest badSrc emptyEnv) = true →
        runDigest badSrc tEnv = runDigest badSrc emptyEnv) :=
  c7_amended badSrc emptyEnv tEnv

/-- C7 counterexample: a config whose `org` field is present but empty fails
with a configuration error although none of the claim's five conditions
holds — the source is specified, the file exists, the JSON parses, `org` is
present (not absent), and the repo list is non-empty. -/
theorem c7_counterexample :
    runDigest badSrc emptyEnv = .error (.config .missingOrg)
    ∧ badSrc.cfgPath ≠ none
    ∧ badSrc.cfgPath ≠ some ""
    ∧ badSrc.fileExists = true
    ∧ badSrc.parsed = some badCfg
    ∧ badCfg.org = some ""
    ∧ badCfg.org ≠ none
    ∧ coerceList badCfg.repos = ["a/b"]
    ∧ coerceList badCfg.users = [] :=
  ⟨rfl, by decide, by decide, rfl, rfl, rfl, by decide, rfl, rfl⟩

/-- C8: a 404 on a detail fetch skips that one record (the map is unchanged
and the loop continues with the remaining records), while any other detail
fetch failure propagates: `addPR` returns the error and the whole run aborts
with it, producing no output. -/
theorem c8_error_handling (env : Env) (m : PRMap) (o1 r1 o2 r2 : String)
    (n1 n2 num cap : Nat) (rest : List (Option Nat)) (s : String)
    (src : ConfigSource) (cfg : Config)
    (hnf : env.pulls_get o1 r1 n1 = .notFound)
    (hnf2 : env.pulls_get o1 r1 num = .notFound)
    (herr : env.pulls_get o2 r2 n2 = .err s)
    (hcap : m.length < cap) (hnum : num ≠ 0)
    (hv : validateConfig src = .ok cfg)
    (hc : collectAll env cfg = .error s) :
    addPR env m o1 r1 n1 = .ok m
    ∧ processRecords env cap o1 r1 (some num :: rest) m
        = processRecords env cap o1 r1 rest m
    ∧ addPR env m o2 r2 n2 = .error s
    ∧ runDigest src env = .error (.fetch s) := by
  have ha : addPR env m o1 r1 num = .ok m := by
    unfold addPR
    rw [hnf2]
  refine ⟨?_, ?_, ?_, ?_⟩
  · unfold addPR
    rw [hnf]
  · simp only [processRecords]
    rw [if_neg (by omega), if_neg hnum, ha]
  · unfold addPR
    rw [herr]
  · simp [runDigest, hv, hc]

/-- Witness for C8 at a concrete environment exercising all four behaviours. -/
theorem c8_error_handling_witness :
    addPR wEnv8 [] "x" "r" 5 = .ok []
    ∧ processRecords wEnv8 1 "x" "r" (some 1 :: []) []
        = processRecords wEnv8 1 "x" "r" [] []
    ∧ addPR wEnv8 [] "y" "z" 1 = .error "boom"
    ∧ runDigest src8 wEnv8 = .error (.fetch "boom") :=
  c8_error_handling wEnv8 [] "x" "r" "y" "z" 5 1 1 1 [] "boom" src8 cfg8
    rfl rfl rfl (by decide) (by decide) rfl rfl

/-- C9: a search item whose URL ends with `/repos/{owner}/{repo}/issues/{n}`
(non-empty slash-free owner and repo, non-empty digit string `n`, with some
prefix before the pattern) parses to exactly those components; a URL
admitting no such decomposition parses to `none`, and such an item is
skipped silently: no entry is added, no error raised, and processing
continues with the remaining items. -/
theorem c9_search_url_parsing (url : String) (env : Env)
    (rest : List (Option String)) (m : PRMap) :
    (∀ pre o r n, url.data = urlPattern pre o r n →
      (∀ c ∈ o, c ≠ '/') → o ≠ [] → (∀ c ∈ r, c ≠ '/') → r ≠ [] →
      isDigitStr n = true →
      parseSearchUrl url = some (String.mk o, String.mk r, digitsToNat n))
    ∧ ((¬ ∃ pre o r n, url.data = urlPattern pre o r n ∧
        (∀ c ∈ o, c ≠ '/') ∧ o ≠ [] ∧ (∀ c ∈ r, c ≠ '/') ∧ r ≠ [] ∧
        isDigitStr n = true) →
      parseSearchUrl url = none)
    ∧ (parseSearchUrl url = none → url ≠ "" →
      processSearchItems env (some url :: rest) m = processSearchItems env rest m) := by
  refine ⟨?_, ?_, ?_⟩
  · intro pre o r n h1 h2 h3 h4 h5 h6
    exact parseSearchUrl_sound url pre o r n h1 h2 h3 h4 h5 h6
  · intro hne
    cases hp : parseSearchUrl url with
    | none => rfl
    | some t =>
      obtain ⟨os, rs, k⟩ := t
      obtain ⟨pre, o, r, n, hpat, ho1, ho2, hr1, hr2, hd, _, _, _⟩ :=
        parseSearchUrl_complete url os rs k hp
      exact absurd ⟨pre, o, r, n, hpat, ho1, ho2, hr1, hr2, hd⟩ hne
  · intro hp hu
    simp only [processSearchItems]
    rw [if_neg hu, hp]

/-- Witness for C9 at the spec's example locator. -/
theorem c9_search_url_parsing_witness :
    parseSearchUrl "https://api.x.test/repos/foo/bar/issues/42"
      = some ("foo", "bar", 42) := by
  have h := (c9_search_url_parsing "https://api.x.test/repos/foo/bar/issues/42"
      emptyEnv [] []).1
    "https://api.x.test".data "foo".data "bar".data "42".data
    (by decide) (by decide) (by decide) (by decide) (by decide) (by decide)
  exact h

/-- C10: a `repos` or `users` field that is present but not an array is
silently coerced to the empty list (as is an absent one); a config whose
`repos` and `users` are both non-array values therefore fails with the
at-least-one-repo-or-user error, not with a malformed-content error. -/
theorem c10_nonarray_coercion (p o : String) (mp mt ms : Option Nat)
    (hp : p ≠ "") (ho : o ≠ "") :
    coerceList JField.wrongType = []
    ∧ coerceList JField.absent = []
    ∧ validateConfig (ConfigSource.mk (some p) true
        (some (RawConfig.mk (some o) JField.wrongType JField.wrongType mp mt ms)))
      = .error .noReposOrUsers := by
  refine ⟨rfl, rfl, ?_⟩
  simp [validateConfig, hp, ho, coerceList]

/-- Witness for C10 at a concrete config. -/
theorem c10_nonarray_coercion_witness :
    coerceList JField.wrongType = []
    ∧ coerceList JField.absent = []
    ∧ validateConfig (ConfigSource.mk (some "c") true
        (some (RawConfig.mk (some "acme") JField.wrongType JField.wrongType none none none)))
      = .error .noReposOrUsers :=
  c10_nonarray_coercion "c" "acme" none none none (by decide) (by decide)

end PRDigest
